import Mathlib

/-!
The examples `examples/context.go` and `examples/pointers.go` of go-tutorial.

A shallow embedding of the two example programs.

* `examples/context.go`: the goroutine `doAnother` (the Worker) is a step
  function on events; `doSomething` (the Coordinator) together with the Worker,
  the derived context and the clock is a labelled transition system
  (`step`).  An arbitrary interleaving is a list of actions (`exec`); the
  idealised timing, in which every statement takes no time and every blocked
  operation proceeds as soon as it can, is `run`, parameterised by a list of
  numbers that resolves every choice between simultaneously enabled actions.
  Time is counted in milliseconds.
* `examples/pointers.go`: the struct `User`, with pointer receivers as
  explicit state passing.
-/

namespace GoTutorial

/-! ## The context primitives used by `examples/context.go` -/

/-- The non-nil values of `ctx.Err()`. -/
inductive Cause where
  | DeadlineExceeded
  | ExplicitlyCancelled
  deriving DecidableEq, Repr

/-- Modelled from the spec: the text of the two error values of the `context`
package (`err.Error()`, printed by `%s`), which is not part of the sources:
a deadline-exceeded message and a context-cancelled message. -/
def Cause.Error : Cause → String
  | .DeadlineExceeded => "context deadline exceeded"
  | .ExplicitlyCancelled => "context canceled"

/-- The state of the context derived at line 15 (the CancellableScope). -/
inductive Scope where
  | Active
  | CancelledByTimeout
  | CancelledExplicitly
  deriving DecidableEq, Repr

/-- Modelled from the spec: `ctx.Err()` of the `context` package, nil
(`none`) while the scope is active, afterwards the cause that won. -/
def Scope.Err : Scope → Option Cause
  | .Active => none
  | .CancelledByTimeout => some .DeadlineExceeded
  | .CancelledExplicitly => some .ExplicitlyCancelled

/-- Modelled from the spec: whether the channel `ctx.Done()` of the `context`
package is closed, so that `case <-ctx.Done()` is ready. -/
def Scope.isDone (s : Scope) : Bool := s.Err.isSome

/-- Modelled from the spec: the function `cancelCtx` returned by
`context.WithTimeout` (the `context` package is not part of the sources):
it cancels an active scope explicitly and has no effect on a cancelled one. -/
def Scope.cancel : Scope → Scope
  | .Active => .CancelledExplicitly
  | s => s

/-- Modelled from the spec: the timer of `context.WithTimeout` (the `context`
package is not part of the sources): when the deadline elapses an active scope
becomes cancelled by timeout, a cancelled one is left as it is. -/
def Scope.expire : Scope → Scope
  | .Active => .CancelledByTimeout
  | s => s

/-! ## Console output -/

/-- One line of console output. -/
inductive Record where
  /-- Line 56: `fmt.Printf("doAnother: %d\n", num)`. -/
  | received (num : Nat)
  /-- Line 51: `fmt.Printf("doAnother err: %s\n", err)`. -/
  | err (c : Cause)
  /-- Line 53: `fmt.Printf("doAnother: finished\n")`. -/
  | workerFinished
  /-- Line 35: `fmt.Printf("doSomething: finished\n")`. -/
  | coordFinished
  deriving DecidableEq, Repr

/-- The text of a record, without the newline that ends it. -/
def Record.render : Record → String
  | .received num => "doAnother: " ++ Nat.repr num
  | .err c => "doAnother err: " ++ c.Error
  | .workerFinished => "doAnother: finished"
  | .coordFinished => "doSomething: finished"

/-- The records printed by `doAnother`. -/
def Record.isWorker : Record → Bool
  | .coordFinished => false
  | _ => true

/-- The ordinal of a record `doAnother: <num>`. -/
def Record.ordinal? : Record → Option Nat
  | .received num => some num
  | _ => none

/-- The ordinals of the records `doAnother: <num>` of an output, in order. -/
def receivedOrdinals (out : List Record) : List Nat := out.filterMap Record.ordinal?

/-! ## The Worker: `doAnother` (lines 46-60) -/

/-- Where `doAnother` is: blocked in the `select` of line 48, or returned. -/
inductive WorkerPc where
  | Listening
  | Stopped
  deriving DecidableEq, Repr

/-- The two ways the `select` of line 48 is resolved. -/
inductive WorkerEvent where
  /-- Line 55: `case num := <-printCh`. -/
  | value (num : Nat)
  /-- Line 49: `case <-ctx.Done()`, with the value `ctx.Err()` has at line 50. -/
  | done (err : Option Cause)
  deriving DecidableEq, Repr

/-- One pass through the body of the `for` loop of `doAnother`: the new
position and the records printed. A returned Worker takes no event. -/
def workerStep : WorkerEvent → WorkerPc → WorkerPc × List Record
  | _, .Stopped => (.Stopped, [])
  | .value num, .Listening => (.Listening, [.received num])
  | .done err, .Listening =>
    (.Stopped,
      (match err with
        | some c => [Record.err c]
        | none => []) ++ [.workerFinished])

/-- The Worker `doAnother` fed with a sequence of events, from the position
`pc`: the position reached and everything printed. -/
def workerFrom : WorkerPc → List WorkerEvent → WorkerPc × List Record
  | pc, [] => (pc, [])
  | pc, e :: es =>
    let r := workerStep e pc
    let rest := workerFrom r.1 es
    (rest.1, r.2 ++ rest.2)

/-- The Worker `doAnother` from its start. -/
def doAnother (events : List WorkerEvent) : WorkerPc × List Record :=
  workerFrom .Listening events

/-! ## The Coordinator: `doSomething` (lines 9-44), run against the Worker -/

/-- The constants of `doSomething`, as parameters. -/
structure Config where
  /-- Line 15: the timeout of `context.WithTimeout`. -/
  timeout : Nat
  /-- Line 27: the sleep after a handoff. -/
  perItemDelay : Nat
  /-- Line 24: the bound of the loop. -/
  totalItems : Nat
  /-- Line 34: the sleep before the last print. -/
  grace : Nat
  deriving DecidableEq, Repr

/-- The constants as written in `examples/context.go`, in milliseconds. -/
def reference : Config :=
  { timeout := 1500, perItemDelay := 1000, totalItems := 3, grace := 100 }

/-- Where `doSomething` is. -/
inductive CoordPc where
  /-- Line 25: blocked in the `select`, offering `num` on `printCh`. -/
  | select (num : Nat)
  /-- Line 27: in `time.Sleep` until `wake`, inside the iteration for `num`. -/
  | sleep (num : Nat) (wake : Nat)
  /-- Line 33: about to call `cancelCtx()`. -/
  | cancel
  /-- Line 34: in `time.Sleep` until `wake`. -/
  | grace (wake : Nat)
  /-- Line 35: about to print. -/
  | print
  /-- Line 16: about to run the deferred `cancelCtx()`. -/
  | deferred
  /-- `doSomething` has returned, and with it `main`. -/
  | returned
  deriving DecidableEq, Repr

/-- Line 24: the loop condition `num <= 3`, evaluated for `num`; the loop is
left for line 33 when it fails. -/
def loopFrom (cfg : Config) (num : Nat) : CoordPc :=
  if num ≤ cfg.totalItems then .select num else .cancel

/-- The whole program state. -/
structure State where
  /-- Milliseconds since `doSomething` was entered. -/
  now : Nat
  ctx : Scope
  coord : CoordPc
  worker : WorkerPc
  /-- The console output so far. -/
  out : List Record
  deriving DecidableEq, Repr

/-- Lines 15-24: the context is derived, the channel made, the Worker started,
and the loop entered with `num := 1`. -/
def init (cfg : Config) : State :=
  { now := 0, ctx := .Active, coord := loopFrom cfg 1, worker := .Listening, out := [] }

/-- The atomic actions of the program and of its environment. -/
inductive Action where
  /-- Lines 26 and 55-56 together: the send of the Coordinator meets the
  receive of the Worker on the unbuffered channel, and the Worker prints.
  Both sides touch `printCh` only in a `select` that also waits on
  `ctx.Done()`, so no send completes once the scope is cancelled. -/
  | handoff
  /-- Line 28: the Coordinator's `select` takes `<-ctx.Done()`. -/
  | coordDone
  /-- Line 49: the Worker's `select` takes `<-ctx.Done()`. -/
  | workerDone
  /-- The deadline of the context has elapsed and its timer fires. -/
  | deadline
  /-- A `time.Sleep` of the Coordinator (line 27 or 34) returns. -/
  | wake
  /-- The Coordinator runs its next statement that cannot block
  (line 33, line 35, or the deferred call of line 16). -/
  | coordStep
  /-- Time passes, up to the next pending timer. -/
  | advance
  deriving DecidableEq, Repr

/-- The timers that have not fired yet: the deadline while the scope is
active, and the end of a sleep of the Coordinator. -/
def pendingTimers (cfg : Config) (s : State) : List Nat :=
  (if s.ctx = .Active then [cfg.timeout] else []) ++
    (match s.coord with
      | .sleep _ wake => [wake]
      | .grace wake => [wake]
      | _ => [])

/-- The earliest pending timer that lies in the future, if any. -/
def nextTimer (cfg : Config) (s : State) : Option Nat :=
  ((pendingTimers cfg s).filter (fun t => s.now < t)).min?

/-- The transition of an action, or `none` when the action cannot happen in
this state. Nothing happens once `doSomething` has returned: `main` returns
with it and the process ends. -/
def step (cfg : Config) (a : Action) (s : State) : Option State :=
  if s.coord = .returned then none else
  match a with
  | .handoff =>
    match s.coord, s.worker with
    | .select num, .Listening =>
      -- with `ctx.Done()` closed neither `select` waits on `printCh` any more
      if s.ctx.isDone then none else
      let r := workerStep (.value num) s.worker
      some { s with
        coord := .sleep num (s.now + cfg.perItemDelay)
        worker := r.1
        out := s.out ++ r.2 }
    | _, _ => none
  | .coordDone =>
    match s.coord with
    | .select num =>
      -- line 29: `break` leaves the `select`; the loop statement goes on with `num++`
      if s.ctx.isDone then some { s with coord := loopFrom cfg (num + 1) } else none
    | _ => none
  | .workerDone =>
    match s.worker with
    | .Listening =>
      if s.ctx.isDone then
        let r := workerStep (.done s.ctx.Err) s.worker
        some { s with worker := r.1, out := s.out ++ r.2 }
      else none
    | .Stopped => none
  | .deadline =>
    if s.ctx = .Active ∧ cfg.timeout ≤ s.now then some { s with ctx := s.ctx.expire }
    else none
  | .wake =>
    match s.coord with
    | .sleep num wake =>
      if wake ≤ s.now then some { s with coord := loopFrom cfg (num + 1) } else none
    | .grace wake =>
      if wake ≤ s.now then some { s with coord := .print } else none
    | _ => none
  | .coordStep =>
    match s.coord with
    | .cancel => some { s with ctx := s.ctx.cancel, coord := .grace (s.now + cfg.grace) }
    | .print => some { s with coord := .deferred, out := s.out ++ [.coordFinished] }
    | .deferred => some { s with ctx := s.ctx.cancel, coord := .returned }
    | _ => none
  | .advance =>
    match nextTimer cfg s with
    | some t => some { s with now := t }
    | none => none

/-- An arbitrary interleaving: the actions of the list are taken in turn, an
action that cannot happen being skipped. -/
def exec (cfg : Config) : List Action → State → State
  | [], s => s
  | a :: rest, s => exec cfg rest ((step cfg a s).getD s)

/-- The actions that take no time. -/
def instantActions : List Action :=
  [.handoff, .coordDone, .workerDone, .deadline, .wake, .coordStep]

/-- The actions that take no time and can happen in this state. -/
def enabled (cfg : Config) (s : State) : List Action :=
  instantActions.filter (fun a => (step cfg a s).isSome)

/-- One step under the idealised timing: an action that can happen now happens
before any time passes, `choice` picking one when there are several; time
passes only when nothing else can happen. -/
def timedStep (cfg : Config) (choice : Nat) (s : State) : State :=
  match enabled cfg s with
  | [] => (step cfg .advance s).getD s
  | a :: rest => (step cfg (((a :: rest).get? (choice % (rest.length + 1))).getD a) s).getD s

/-- The program under the idealised timing, one step per element of
`choices`. -/
def run (cfg : Config) : List Nat → State → State
  | [], s => s
  | c :: rest, s => run cfg rest (timedStep cfg c s)

/-- The function `doSomething` under the idealised timing: the program is run
from its start for as many steps as `choices` has elements. -/
def doSomething (cfg : Config) (choices : List Nat) : State := run cfg choices (init cfg)

/-- The records of an output printed by `doAnother`. -/
def workerRecords (s : State) : List Record := s.out.filter Record.isWorker

/-- The output as lines of text. -/
def lines (out : List Record) : List String := out.map Record.render

/-! ## `examples/pointers.go` -/

/-- The struct `User` (lines 9-14). -/
structure User where
  email : String
  username : String
  age : Int
  file : List UInt8
  deriving DecidableEq

/-- Line 23: the value-receiver method `func (u User) Email() string`. -/
def User.Email (u : User) : String := u.email

/-- Line 32: the function `func Email(user User) string`. -/
def Email (user : User) : String := user.email

/-- Line 38: the pointer-receiver method `func (u *User) updateEmail`, as the
value the pointer refers to afterwards. -/
def User.updateEmail (u : User) (email : String) : User := { u with email := email }

/-- Line 44: the function `func UpdateEmail(u *User, email string)`, as the
value the pointer refers to afterwards. -/
def UpdateEmail (u : User) (email : String) : User := { u with email := email }

/-- Under the idealised timing the state `s` is followed by `t`, whatever the
choice. -/
def Det (cfg : Config) (s t : State) : Prop := ∀ c, timedStep cfg c s = t

/-- Under the idealised timing the state `t` is reached from `s` after some
number `m ≤ n` of steps, whatever the choices. -/
def Within (cfg : Config) (n : Nat) (s t : State) : Prop :=
  ∃ m, m ≤ n ∧ ∀ cs : List Nat, cs.length = m → run cfg cs s = t

/-- The records `doAnother: 1`, ..., `doAnother: m`. -/
def recvd (m : Nat) : List Record := (List.range' 1 m).map Record.received

/-- The scenario in which the timeout does not fire during the handoffs: the
constants of `examples/context.go` with a timeout of ten seconds. -/
def longTimeout : Config := { reference with timeout := 10000 }

/-- What bounds the ordinals received so far, by the position of the
Coordinator: below the ordinal on offer, up to the ordinal just handed off. -/
def ordinalsBelow (out : List Record) : CoordPc → Prop
  | .select num => ∀ n ∈ receivedOrdinals out, n < num
  | .sleep num _ => ∀ n ∈ receivedOrdinals out, n ≤ num
  | _ => True

/-- The invariant of the handoffs: the ordinals received are strictly
increasing and bounded by the position of the Coordinator. -/
def Ordered (s : State) : Prop :=
  List.Pairwise (fun a b => a < b) (receivedOrdinals s.out) ∧ ordinalsBelow s.out s.coord

/-- The Coordinator is past its last offer: it is not in the `select`, and a
sleep of line 27 it is in belongs to the last iteration of the loop. -/
def PastHandoffs (cfg : Config) (s : State) : Prop :=
  match s.coord with
  | .select _ => False
  | .sleep num _ => cfg.totalItems ≤ num
  | _ => True

/-! ## Steps that leave no choice -/

theorem det_handoff (cfg : Config) (now i : Nat) (out : List Record) (h : now < cfg.timeout) :
    Det cfg ⟨now, .Active, .select i, .Listening, out⟩
      ⟨now, .Active, .sleep i (now + cfg.perItemDelay), .Listening, out ++ [.received i]⟩ := by
  intro c
  simp [timedStep, enabled, instantActions, step, Scope.isDone, Scope.Err, workerStep, h]

theorem det_sleep_advance (cfg : Config) (now i w : Nat) (out : List Record) (wk : WorkerPc)
    (h : now < cfg.timeout) (hw : now < w) :
    Det cfg ⟨now, .Active, .sleep i w, wk, out⟩
      ⟨min cfg.timeout w, .Active, .sleep i w, wk, out⟩ := by
  intro c
  cases wk <;>
  simp [timedStep, enabled, instantActions, step, Scope.isDone, Scope.Err, workerStep,
    nextTimer, pendingTimers, h, hw, List.min?]

theorem det_wake_active (cfg : Config) (now i w : Nat) (out : List Record) (wk : WorkerPc)
    (h : now < cfg.timeout) (hw : w ≤ now) :
    Det cfg ⟨now, .Active, .sleep i w, wk, out⟩
      ⟨now, .Active, loopFrom cfg (i + 1), wk, out⟩ := by
  intro c
  cases wk <;>
  simp [timedStep, enabled, instantActions, step, Scope.isDone, Scope.Err, workerStep, h, hw]

theorem det_deadline (cfg : Config) (now i w : Nat) (out : List Record) (wk : WorkerPc)
    (h : cfg.timeout ≤ now) (hw : now < w) :
    Det cfg ⟨now, .Active, .sleep i w, wk, out⟩
      ⟨now, .CancelledByTimeout, .sleep i w, wk, out⟩ := by
  intro c
  cases wk <;>
  simp [timedStep, enabled, instantActions, step, Scope.isDone, Scope.Err, workerStep, h, hw,
    Scope.expire]

theorem det_workerDone_sleep (cfg : Config) (now i w : Nat) (out : List Record)
    (hw : now < w) :
    Det cfg ⟨now, .CancelledByTimeout, .sleep i w, .Listening, out⟩
      ⟨now, .CancelledByTimeout, .sleep i w, .Stopped,
        out ++ [.err .DeadlineExceeded, .workerFinished]⟩ := by
  intro c
  simp [timedStep, enabled, instantActions, step, Scope.isDone, Scope.Err, workerStep, hw]

theorem det_advance_stopped (cfg : Config) (now i w : Nat) (out : List Record)
    (hw : now < w) :
    Det cfg ⟨now, .CancelledByTimeout, .sleep i w, .Stopped, out⟩
      ⟨w, .CancelledByTimeout, .sleep i w, .Stopped, out⟩ := by
  intro c
  simp [timedStep, enabled, instantActions, step, Scope.isDone, Scope.Err, workerStep, hw,
    nextTimer, pendingTimers, List.min?]

theorem det_wake_stopped (cfg : Config) (now i w : Nat) (out : List Record)
    (hw : w ≤ now) :
    Det cfg ⟨now, .CancelledByTimeout, .sleep i w, .Stopped, out⟩
      ⟨now, .CancelledByTimeout, loopFrom cfg (i + 1), .Stopped, out⟩ := by
  intro c
  simp [timedStep, enabled, instantActions, step, Scope.isDone, Scope.Err, workerStep, hw]

theorem det_coordDone (cfg : Config) (now j : Nat) (out : List Record) :
    Det cfg ⟨now, .CancelledByTimeout, .select j, .Stopped, out⟩
      ⟨now, .CancelledByTimeout, loopFrom cfg (j + 1), .Stopped, out⟩ := by
  intro c
  simp [timedStep, enabled, instantActions, step, Scope.isDone, Scope.Err, workerStep]

theorem det_cancel_stopped (cfg : Config) (now : Nat) (out : List Record) :
    Det cfg ⟨now, .CancelledByTimeout, .cancel, .Stopped, out⟩
      ⟨now, .CancelledByTimeout, .grace (now + cfg.grace), .Stopped, out⟩ := by
  intro c
  simp [timedStep, enabled, instantActions, step, Scope.isDone, Scope.Err, workerStep,
    Scope.cancel]

theorem det_cancel_active (cfg : Config) (now : Nat) (out : List Record)
    (h : now < cfg.timeout) :
    Det cfg ⟨now, .Active, .cancel, .Listening, out⟩
      ⟨now, .CancelledExplicitly, .grace (now + cfg.grace), .Listening, out⟩ := by
  intro c
  simp [timedStep, enabled, instantActions, step, Scope.isDone, Scope.Err, workerStep,
    Scope.cancel, h]

theorem det_workerDone_grace (cfg : Config) (now w : Nat) (out : List Record)
    (hw : now < w) :
    Det cfg ⟨now, .CancelledExplicitly, .grace w, .Listening, out⟩
      ⟨now, .CancelledExplicitly, .grace w, .Stopped,
        out ++ [.err .ExplicitlyCancelled, .workerFinished]⟩ := by
  intro c
  simp [timedStep, enabled, instantActions, step, Scope.isDone, Scope.Err, workerStep, hw]

theorem det_grace_advance (cfg : Config) (ctx : Scope) (now w : Nat) (out : List Record)
    (hc : ctx ≠ .Active) (hw : now < w) :
    Det cfg ⟨now, ctx, .grace w, .Stopped, out⟩ ⟨w, ctx, .grace w, .Stopped, out⟩ := by
  intro c
  cases ctx <;>
  simp_all [timedStep, enabled, instantActions, step, Scope.isDone, Scope.Err, workerStep,
    nextTimer, pendingTimers, List.min?]

theorem det_grace_wake (cfg : Config) (ctx : Scope) (now w : Nat) (out : List Record)
    (hc : ctx ≠ .Active) (hw : w ≤ now) :
    Det cfg ⟨now, ctx, .grace w, .Stopped, out⟩ ⟨now, ctx, .print, .Stopped, out⟩ := by
  intro c
  cases ctx <;>
  simp_all [timedStep, enabled, instantActions, step, Scope.isDone, Scope.Err, workerStep]

theorem det_print (cfg : Config) (ctx : Scope) (now : Nat) (out : List Record)
    (hc : ctx ≠ .Active) :
    Det cfg ⟨now, ctx, .print, .Stopped, out⟩
      ⟨now, ctx, .deferred, .Stopped, out ++ [.coordFinished]⟩ := by
  intro c
  cases ctx <;>
  simp_all [timedStep, enabled, instantActions, step, Scope.isDone, Scope.Err, workerStep]

theorem det_deferred (cfg : Config) (ctx : Scope) (now : Nat) (out : List Record)
    (hc : ctx ≠ .Active) :
    Det cfg ⟨now, ctx, .deferred, .Stopped, out⟩ ⟨now, ctx, .returned, .Stopped, out⟩ := by
  intro c
  cases ctx <;>
  simp_all [timedStep, enabled, instantActions, step, Scope.isDone, Scope.Err, workerStep,
    Scope.cancel]

/-! ## Runs -/

theorem timedStep_returned (cfg : Config) (c : Nat) (s : State) (h : s.coord = .returned) :
    timedStep cfg c s = s := by
  simp [timedStep, enabled, instantActions, step, h]

theorem run_returned (cfg : Config) (cs : List Nat) (s : State) (h : s.coord = .returned) :
    run cfg cs s = s := by
  induction cs with
  | nil => rfl
  | cons c rest ih => simp [run, timedStep_returned cfg c s h, ih]

theorem run_append (cfg : Config) (as bs : List Nat) (s : State) :
    run cfg (as ++ bs) s = run cfg bs (run cfg as s) := by
  induction as generalizing s with
  | nil => rfl
  | cons c rest ih => simp [run, ih]

theorem Within.refl (cfg : Config) (s : State) : Within cfg 0 s s :=
  ⟨0, Nat.le_refl _, fun cs h => by
    rw [List.length_eq_zero] at h; subst h; rfl⟩

theorem Within.mono {cfg : Config} {a b : Nat} {s t : State} (h : Within cfg a s t)
    (hab : a ≤ b) : Within cfg b s t := by
  obtain ⟨m, hm, hr⟩ := h
  exact ⟨m, Nat.le_trans hm hab, hr⟩

theorem Within.trans {cfg : Config} {a b : Nat} {s t u : State} (h : Within cfg a s t)
    (h2 : Within cfg b t u) : Within cfg (a + b) s u := by
  obtain ⟨m, hm, hr⟩ := h
  obtain ⟨m2, hm2, hr2⟩ := h2
  refine ⟨m + m2, by omega, fun cs hcs => ?_⟩
  have hsplit : cs = cs.take m ++ cs.drop m := (List.take_append_drop m cs).symm
  rw [hsplit, run_append, hr (cs.take m) (by simp; omega), hr2 (cs.drop m) (by simp; omega)]

theorem Within.step {cfg : Config} {a : Nat} {s t u : State} (h : Within cfg a s t)
    (hd : Det cfg t u) : Within cfg (a + 1) s u := by
  refine h.trans ⟨1, Nat.le_refl _, fun cs hcs => ?_⟩
  match cs, hcs with
  | [c], _ => simp [run, hd c]

theorem run_of_within (cfg : Config) {n : Nat} {s t : State} (h : Within cfg n s t)
    (ht : t.coord = .returned) (cs : List Nat) (hcs : n ≤ cs.length) : run cfg cs s = t := by
  obtain ⟨m, hm, hr⟩ := h
  have hsplit : cs = cs.take m ++ cs.drop m := (List.take_append_drop m cs).symm
  rw [hsplit, run_append, hr (cs.take m) (by simp; omega), run_returned cfg _ t ht]

theorem recvd_succ (m : Nat) : recvd (m + 1) = recvd m ++ [.received (m + 1)] := by
  simp [recvd, List.range'_concat, Nat.add_comm]

/-- The handoffs that complete before the deadline: the state in which the
ordinal `m + 1` is offered, at the time `m * perItemDelay`. -/
theorem within_offer (cfg : Config) (hD : 0 < cfg.perItemDelay) (m : Nat)
    (hm : m * cfg.perItemDelay < cfg.timeout) (hN : m + 1 ≤ cfg.totalItems) :
    Within cfg (3 * m) (init cfg)
      ⟨m * cfg.perItemDelay, .Active, .select (m + 1), .Listening, recvd m⟩ := by
  induction m with
  | zero =>
    have : init cfg = ⟨0 * cfg.perItemDelay, .Active, .select (0 + 1), .Listening, recvd 0⟩ := by
      simp [init, loopFrom, recvd]; omega
    rw [this]; exact Within.refl _ _
  | succ m ih =>
    have e : (m + 1) * cfg.perItemDelay = m * cfg.perItemDelay + cfg.perItemDelay :=
      Nat.succ_mul _ _
    have h1 := ih (by omega) (by omega)
    have h2 := h1.step (det_handoff cfg _ (m + 1) _ (by omega))
    have h3 := h2.step (det_sleep_advance cfg _ _ _ _ _ (by omega) (by omega))
    rw [Nat.min_eq_right (by omega)] at h3
    have h4 := h3.step (det_wake_active cfg _ _ _ _ _ (by omega) (Nat.le_refl _))
    have e2 : loopFrom cfg (m + 1 + 1) = .select (m + 1 + 1) := by
      simp [loopFrom]; omega
    rw [e2, ← recvd_succ, ← e] at h4
    exact h4.mono (by omega)

/-- With the scope cancelled and the Worker gone, the loop runs through its
remaining iterations without a handoff and reaches line 33. -/
theorem within_spin (cfg : Config) (now : Nat) (out : List Record) (d j : Nat)
    (hj : cfg.totalItems + 1 ≤ j + d) :
    Within cfg d ⟨now, .CancelledByTimeout, loopFrom cfg j, .Stopped, out⟩
      ⟨now, .CancelledByTimeout, .cancel, .Stopped, out⟩ := by
  induction d generalizing j with
  | zero =>
    have : loopFrom cfg j = .cancel := by simp [loopFrom]; omega
    rw [this]; exact Within.refl _ _
  | succ d ih =>
    by_cases hle : j ≤ cfg.totalItems
    · have : loopFrom cfg j = .select j := by simp [loopFrom, hle]
      rw [this]
      exact (((Within.refl cfg _).step (det_coordDone cfg now j out)).trans
        (ih (j + 1) (by omega))).mono (by omega)
    · have : loopFrom cfg j = .cancel := by simp [loopFrom, hle]
      rw [this]; exact (Within.refl _ _).mono (Nat.zero_le _)

/-- From line 34 with the Worker gone to the return of `doSomething`. -/
theorem within_finish (cfg : Config) (ctx : Scope) (now : Nat) (out : List Record)
    (hc : ctx ≠ .Active) (w : Nat) (hw : now ≤ w) :
    Within cfg 4 ⟨now, ctx, .grace w, .Stopped, out⟩
      ⟨w, ctx, .returned, .Stopped, out ++ [.coordFinished]⟩ := by
  have h0 : Within cfg 1 ⟨now, ctx, .grace w, .Stopped, out⟩
      ⟨w, ctx, .grace w, .Stopped, out⟩ := by
    rcases Nat.eq_or_lt_of_le hw with h | h
    · subst h; exact (Within.refl _ _).mono (Nat.zero_le _)
    · exact (Within.refl _ _).step (det_grace_advance cfg ctx now w out hc h)
  have h1 := h0.step (det_grace_wake cfg ctx w w out hc (Nat.le_refl _))
  have h2 := h1.step (det_print cfg ctx w out hc)
  exact h2.step (det_deferred cfg ctx w _ hc)

/-- The whole run when the deadline falls strictly between the handoff of the
ordinal `k` and the end of the sleep that follows it. -/
theorem within_deadline_between (cfg : Config) (k : Nat) (hk : 1 ≤ k)
    (hkN : k ≤ cfg.totalItems)
    (hlo : cfg.perItemDelay * (k - 1) < cfg.timeout)
    (hhi : cfg.timeout < cfg.perItemDelay * k) :
    Within cfg (2 * k + cfg.totalItems + 8) (init cfg)
      ⟨cfg.perItemDelay * k + cfg.grace, .CancelledByTimeout, .returned, .Stopped,
        recvd k ++ [.err .DeadlineExceeded, .workerFinished, .coordFinished]⟩ := by
  obtain ⟨m, rfl⟩ : ∃ m, k = m + 1 := ⟨k - 1, by omega⟩
  simp only [Nat.add_sub_cancel] at hlo
  have hD : 0 < cfg.perItemDelay := by
    rcases Nat.eq_zero_or_pos cfg.perItemDelay with h | h
    · rw [h] at hhi; simp at hhi
    · exact h
  have e : cfg.perItemDelay * (m + 1) = m * cfg.perItemDelay + cfg.perItemDelay := by
    rw [Nat.mul_comm]; exact Nat.succ_mul _ _
  have e0 : cfg.perItemDelay * m = m * cfg.perItemDelay := Nat.mul_comm _ _
  have h1 := within_offer cfg hD m (by omega) (by omega)
  have h2 := h1.step (det_handoff cfg _ (m + 1) _ (by omega))
  have h3 := h2.step (det_sleep_advance cfg _ _ _ _ _ (by omega) (by omega))
  rw [Nat.min_eq_left (by omega)] at h3
  have h4 := h3.step (det_deadline cfg _ _ _ _ _ (Nat.le_refl _) (by omega))
  have h5 := h4.step (det_workerDone_sleep cfg _ _ _ _ (by omega))
  have h6 := h5.step (det_advance_stopped cfg _ _ _ _ (by omega))
  have h7 := h6.step (det_wake_stopped cfg _ _ _ _ (Nat.le_refl _))
  have h8 := h7.trans
    (within_spin cfg _ _ (cfg.totalItems - (m + 1)) (m + 1 + 1) (by omega))
  have h9 := h8.step (det_cancel_stopped cfg _ _)
  have h10 := h9.trans
    (within_finish cfg .CancelledByTimeout _ _ (by decide) _ (Nat.le_add_right _ _))
  rw [← recvd_succ, ← e] at h10
  exact (by simpa using h10 : Within cfg _ _ _).mono (by omega)

/-- The whole run when the deadline lies after the last sleep of the loop. -/
theorem within_deadline_after (cfg : Config) (hN : 1 ≤ cfg.totalItems)
    (hD : 0 < cfg.perItemDelay) (hG : 0 < cfg.grace)
    (hT : cfg.perItemDelay * cfg.totalItems < cfg.timeout) :
    Within cfg (3 * cfg.totalItems + 6) (init cfg)
      ⟨cfg.perItemDelay * cfg.totalItems + cfg.grace, .CancelledExplicitly, .returned, .Stopped,
        recvd cfg.totalItems ++ [.err .ExplicitlyCancelled, .workerFinished, .coordFinished]⟩ := by
  obtain ⟨m, hm⟩ : ∃ m, cfg.totalItems = m + 1 := ⟨cfg.totalItems - 1, by omega⟩
  rw [hm] at hT ⊢
  have e : cfg.perItemDelay * (m + 1) = m * cfg.perItemDelay + cfg.perItemDelay := by
    rw [Nat.mul_comm]; exact Nat.succ_mul _ _
  have h1 := within_offer cfg hD m (by omega) (by omega)
  have h2 := h1.step (det_handoff cfg _ (m + 1) _ (by omega))
  have h3 := h2.step (det_sleep_advance cfg _ _ _ _ _ (by omega) (by omega))
  rw [Nat.min_eq_right (by omega)] at h3
  have h4 := h3.step (det_wake_active cfg _ _ _ _ _ (by omega) (Nat.le_refl _))
  have e2 : loopFrom cfg (m + 1 + 1) = .cancel := by simp [loopFrom]; omega
  rw [e2] at h4
  have h5 := h4.step (det_cancel_active cfg _ _ (by omega))
  have h6 := h5.step (det_workerDone_grace cfg _ _ _ (by omega))
  have h7 := h6.trans
    (within_finish cfg .CancelledExplicitly _ _ (by decide) _ (Nat.le_add_right _ _))
  rw [← recvd_succ, ← e] at h7
  exact (by simpa using h7 : Within cfg _ _ _).mono (by omega)

/-! ## Output of the final states -/

theorem filter_isWorker_recvd (m : Nat) : (recvd m).filter Record.isWorker = recvd m := by
  rw [List.filter_eq_self]
  intro a ha
  simp only [recvd, List.mem_map] at ha
  obtain ⟨x, _, rfl⟩ := ha
  rfl

theorem receivedOrdinals_recvd (m : Nat) : receivedOrdinals (recvd m) = List.range' 1 m := by
  simp [receivedOrdinals, recvd, List.filterMap_map, Function.comp_def, Record.ordinal?]

theorem receivedOrdinals_append (a b : List Record) :
    receivedOrdinals (a ++ b) = receivedOrdinals a ++ receivedOrdinals b := by
  simp [receivedOrdinals]

/-! ## The Worker alone -/

theorem workerFrom_stopped (es : List WorkerEvent) : workerFrom .Stopped es = (.Stopped, []) := by
  induction es with
  | nil => rfl
  | cons e rest ih => cases e <;> simp [workerFrom, workerStep, ih]

theorem workerFrom_values (vs : List Nat) (es : List WorkerEvent) :
    workerFrom .Listening (vs.map .value ++ es) =
      ((workerFrom .Listening es).1, vs.map .received ++ (workerFrom .Listening es).2) := by
  induction vs with
  | nil => simp
  | cons v rest ih => simp [workerFrom, workerStep, ih]

theorem doAnother_values_done (vs : List Nat) (err : Option Cause) :
    doAnother (vs.map .value ++ [.done err]) =
      (.Stopped, vs.map .received ++
        ((match err with
          | some c => [Record.err c]
          | none => []) ++ [.workerFinished])) := by
  simp [doAnother, workerFrom_values, workerFrom, workerStep]

/-- The last character of the decimal digits of a number is a digit. -/
theorem toDigitsCore_suffix (f n : Nat) (ds : List Char) :
    ∃ pre, Nat.toDigitsCore 10 f n ds = pre ++ ds := by
  induction f generalizing n ds with
  | zero => exact ⟨[], by simp [Nat.toDigitsCore]⟩
  | succ f ih =>
    simp only [Nat.toDigitsCore]
    split
    · exact ⟨[Nat.digitChar (n % 10)], rfl⟩
    · obtain ⟨pre, hpre⟩ := ih (n / 10) (Nat.digitChar (n % 10) :: ds)
      exact ⟨pre ++ [Nat.digitChar (n % 10)], by simp [hpre]⟩

theorem toDigits_last (n : Nat) :
    ∃ pre, Nat.toDigits 10 n = pre ++ [Nat.digitChar (n % 10)] := by
  simp only [Nat.toDigits, Nat.toDigitsCore]
  split
  · exact ⟨[], rfl⟩
  · exact toDigitsCore_suffix _ _ _

theorem digitChar_ne_d (n : Nat) : Nat.digitChar (n % 10) ≠ 'd' := by
  have h : n % 10 < 10 := Nat.mod_lt _ (by decide)
  interval_cases (n % 10) <;> decide

/-- No record of a received value reads as the termination record. -/
theorem render_received_ne (n : Nat) :
    Record.render (.received n) ≠ "doAnother: finished" := by
  intro h
  obtain ⟨pre, hpre⟩ := toDigits_last n
  have h2 : ("doAnother: " ++ Nat.repr n).data = "doAnother: finished".data := by
    simpa [Record.render] using congrArg String.data h
  simp only [String.data_append, Nat.repr, List.asString, hpre] at h2
  have h3 : "doAnother: ".data ++ (pre ++ [Nat.digitChar (n % 10)]) =
      ("doAnother: finishe".data) ++ ['d'] := by
    rw [h2]; decide
  rw [← List.append_assoc] at h3
  have h4 := (List.append_inj' h3 rfl).2
  exact digitChar_ne_d n (by simpa using h4)

theorem render_err_ne (c : Cause) : Record.render (.err c) ≠ "doAnother: finished" := by
  cases c <;> decide

/-! ## The invariant of the handoffs -/

theorem ordered_init (cfg : Config) : Ordered (init cfg) := by
  refine ⟨by simp [init, receivedOrdinals], ?_⟩
  simp only [init, loopFrom]
  split <;> simp [ordinalsBelow, receivedOrdinals]

theorem ordinalsBelow_loopFrom (cfg : Config) (out : List Record) (num : Nat)
    (h : ∀ n ∈ receivedOrdinals out, n ≤ num) : ordinalsBelow out (loopFrom cfg (num + 1)) := by
  simp only [loopFrom]
  split
  · intro n hn; exact Nat.lt_succ_of_le (h n hn)
  · trivial

theorem ordered_step (cfg : Config) (a : Action) (s t : State) (hs : Ordered s)
    (h : step cfg a s = some t) : Ordered t := by
  obtain ⟨now, ctx, coord, worker, out⟩ := s
  obtain ⟨hp, hb⟩ := hs
  by_cases hr : coord = .returned
  · simp [step, hr] at h
  · cases a with
    | handoff =>
      cases coord <;> cases worker <;> simp [step] at h
      obtain ⟨_, rfl⟩ := h
      simp only [ordinalsBelow] at hb
      refine ⟨?_, ?_⟩
      · simp only [workerStep, receivedOrdinals_append]
        rw [List.pairwise_append]
        refine ⟨hp, by simp [receivedOrdinals, Record.ordinal?], ?_⟩
        intro x hx y hy
        simp [receivedOrdinals, Record.ordinal?] at hy
        subst hy
        exact hb x hx
      · simp only [ordinalsBelow, workerStep, receivedOrdinals_append]
        intro n hn
        rw [List.mem_append] at hn
        rcases hn with hn | hn
        · exact Nat.le_of_lt (hb n hn)
        · simp [receivedOrdinals, Record.ordinal?] at hn
          exact Nat.le_of_eq hn
    | coordDone =>
      cases coord <;> simp [step] at h
      obtain ⟨_, rfl⟩ := h
      exact ⟨hp, ordinalsBelow_loopFrom cfg out _ (fun n hn => Nat.le_of_lt (hb n hn))⟩
    | workerDone =>
      cases worker <;> simp [step, hr] at h
      obtain ⟨_, rfl⟩ := h
      have e : receivedOrdinals (out ++ (workerStep (.done ctx.Err) .Listening).2) =
          receivedOrdinals out := by
        cases ctx <;> simp [receivedOrdinals, workerStep, Scope.Err, Record.ordinal?]
      refine ⟨by simpa only [e] using hp, ?_⟩
      cases coord <;> simp only [ordinalsBelow, e] <;> exact hb
    | deadline =>
      simp [step, hr] at h
      obtain ⟨_, rfl⟩ := h
      exact ⟨hp, hb⟩
    | wake =>
      cases coord <;> simp [step] at h
      · obtain ⟨_, rfl⟩ := h
        exact ⟨hp, ordinalsBelow_loopFrom cfg out _ hb⟩
      · obtain ⟨_, rfl⟩ := h
        exact ⟨hp, trivial⟩
    | coordStep =>
      cases coord <;> simp [step] at h
      · subst h; exact ⟨hp, trivial⟩
      · subst h
        exact ⟨by simpa [receivedOrdinals, Record.ordinal?] using hp, trivial⟩
      · subst h; exact ⟨hp, trivial⟩
    | advance =>
      simp only [step, hr, if_false] at h
      split at h
      · simp at h; subst h; exact ⟨hp, hb⟩
      · exact absurd h (by simp)

theorem ordered_step_getD (cfg : Config) (a : Action) (s : State) (hs : Ordered s) :
    Ordered ((step cfg a s).getD s) := by
  cases h : step cfg a s with
  | none => simpa using hs
  | some t => simpa using ordered_step cfg a s t hs h

theorem ordered_exec (cfg : Config) (sched : List Action) (s : State) (hs : Ordered s) :
    Ordered (exec cfg sched s) := by
  induction sched generalizing s with
  | nil => exact hs
  | cons a rest ih => exact ih _ (ordered_step_getD cfg a s hs)

theorem ordered_timedStep (cfg : Config) (c : Nat) (s : State) (hs : Ordered s) :
    Ordered (timedStep cfg c s) := by
  simp only [timedStep]
  split <;> exact ordered_step_getD cfg _ s hs

theorem ordered_run (cfg : Config) (cs : List Nat) (s : State) (hs : Ordered s) :
    Ordered (run cfg cs s) := by
  induction cs generalizing s with
  | nil => exact hs
  | cons c rest ih => exact ih _ (ordered_timedStep cfg c s hs)

/-! ## The cause of a cancelled scope is kept -/

theorem step_keeps_timeout (cfg : Config) (a : Action) (s t : State)
    (hs : s.ctx = .CancelledByTimeout) (h : step cfg a s = some t) :
    t.ctx = .CancelledByTimeout := by
  obtain ⟨now, ctx, coord, worker, out⟩ := s
  simp only at hs
  subst hs
  by_cases hr : coord = .returned
  · simp [step, hr] at h
  · cases a with
    | handoff => cases coord <;> cases worker <;> simp [step, Scope.isDone, Scope.Err] at h
    | coordDone => cases coord <;> simp [step] at h; obtain ⟨_, rfl⟩ := h; rfl
    | workerDone => cases worker <;> simp [step, hr] at h; obtain ⟨_, rfl⟩ := h; rfl
    | deadline => simp [step, hr] at h
    | wake =>
      cases coord <;> simp [step] at h
      · obtain ⟨_, rfl⟩ := h; rfl
      · obtain ⟨_, rfl⟩ := h; rfl
    | coordStep =>
      cases coord <;> simp [step] at h
      · subst h; rfl
      · subst h; rfl
      · subst h; rfl
    | advance =>
      simp only [step, hr, if_false] at h
      split at h
      · simp at h; subst h; rfl
      · exact absurd h (by simp)

theorem exec_keeps_timeout (cfg : Config) (sched : List Action) (s : State)
    (hs : s.ctx = .CancelledByTimeout) : (exec cfg sched s).ctx = .CancelledByTimeout := by
  induction sched generalizing s with
  | nil => exact hs
  | cons a rest ih =>
    apply ih
    cases h : step cfg a s with
    | none => simpa using hs
    | some t => simpa using step_keeps_timeout cfg a s t hs h

/-! ## After the last offer -/

theorem past_step (cfg : Config) (a : Action) (s t : State) (hs : PastHandoffs cfg s)
    (h : step cfg a s = some t) :
    PastHandoffs cfg t ∧ receivedOrdinals t.out = receivedOrdinals s.out := by
  obtain ⟨now, ctx, coord, worker, out⟩ := s
  by_cases hr : coord = .returned
  · simp [step, hr] at h
  · cases a with
    | handoff =>
      cases coord <;> cases worker <;> simp [step] at h
      exact absurd hs (by simp [PastHandoffs])
    | coordDone =>
      cases coord <;> simp [step] at h
      exact absurd hs (by simp [PastHandoffs])
    | workerDone =>
      cases worker <;> simp [step, hr] at h
      obtain ⟨_, rfl⟩ := h
      refine ⟨hs, ?_⟩
      cases ctx <;> simp [receivedOrdinals, workerStep, Scope.Err, Record.ordinal?]
    | deadline =>
      simp [step, hr] at h
      obtain ⟨_, rfl⟩ := h
      exact ⟨hs, rfl⟩
    | wake =>
      cases coord <;> simp [step] at h
      · obtain ⟨_, rfl⟩ := h
        rename_i num wake _
        have hs2 : cfg.totalItems ≤ num := hs
        have e : loopFrom cfg (num + 1) = .cancel := by simp [loopFrom]; omega
        exact ⟨by simp [PastHandoffs, e], rfl⟩
      · obtain ⟨_, rfl⟩ := h
        exact ⟨trivial, rfl⟩
    | coordStep =>
      cases coord <;> simp [step] at h
      · subst h; exact ⟨trivial, rfl⟩
      · subst h
        exact ⟨trivial, by simp [receivedOrdinals, Record.ordinal?]⟩
      · subst h; exact ⟨trivial, rfl⟩
    | advance =>
      simp only [step, hr, if_false] at h
      split at h
      · simp at h; subst h; exact ⟨hs, rfl⟩
      · exact absurd h (by simp)

theorem past_timedStep (cfg : Config) (c : Nat) (s : State) (hs : PastHandoffs cfg s) :
    PastHandoffs cfg (timedStep cfg c s) ∧
      receivedOrdinals (timedStep cfg c s).out = receivedOrdinals s.out := by
  have key : ∀ a, PastHandoffs cfg ((step cfg a s).getD s) ∧
      receivedOrdinals ((step cfg a s).getD s).out = receivedOrdinals s.out := by
    intro a
    cases h : step cfg a s with
    | none => exact ⟨by simpa using hs, by simp⟩
    | some t => simpa using past_step cfg a s t hs h
  simp only [timedStep]
  split <;> exact key _

theorem past_run (cfg : Config) (cs : List Nat) (s : State) (hs : PastHandoffs cfg s) :
    receivedOrdinals (run cfg cs s).out = receivedOrdinals s.out := by
  induction cs generalizing s with
  | nil => rfl
  | cons c rest ih =>
    have h := past_timedStep cfg c s hs
    simp only [run]
    rw [ih _ h.1, h.2]

/-- The run up to the last handoff, when the deadline lies after it. -/
theorem within_last_handoff (cfg : Config) (hN : 1 ≤ cfg.totalItems)
    (hD : 0 < cfg.perItemDelay)
    (hT : cfg.perItemDelay * (cfg.totalItems - 1) < cfg.timeout) :
    Within cfg (3 * cfg.totalItems) (init cfg)
      ⟨(cfg.totalItems - 1) * cfg.perItemDelay, .Active,
        .sleep cfg.totalItems ((cfg.totalItems - 1) * cfg.perItemDelay + cfg.perItemDelay),
        .Listening, recvd cfg.totalItems⟩ := by
  obtain ⟨m, hm⟩ : ∃ m, cfg.totalItems = m + 1 := ⟨cfg.totalItems - 1, by omega⟩
  rw [hm] at hT ⊢
  simp only [Nat.add_sub_cancel] at hT ⊢
  have e0 : cfg.perItemDelay * m = m * cfg.perItemDelay := Nat.mul_comm _ _
  have h1 := within_offer cfg hD m (by omega) (by omega)
  have h2 := h1.step (det_handoff cfg _ (m + 1) _ (by omega))
  rw [← recvd_succ] at h2
  exact h2.mono (by omega)

/-- The ordinals received when the deadline falls on the end of the last sleep
of the loop: all of them, however the tie is resolved. -/
theorem ordinals_deadline_on_last_wake (cfg : Config) (hN : 1 ≤ cfg.totalItems)
    (hD : 0 < cfg.perItemDelay)
    (hT : cfg.perItemDelay * (cfg.totalItems - 1) < cfg.timeout)
    (cs : List Nat) (hcs : 3 * cfg.totalItems ≤ cs.length) :
    receivedOrdinals (run cfg cs (init cfg)).out = List.range' 1 cfg.totalItems := by
  obtain ⟨m, hm, hr⟩ := within_last_handoff cfg hN hD hT
  have hsplit : cs = cs.take m ++ cs.drop m := (List.take_append_drop m cs).symm
  rw [hsplit, run_append, hr (cs.take m) (by simp; omega), past_run]
  · exact receivedOrdinals_recvd _
  · simp [PastHandoffs]

/-! ## The claims -/

/-- C1, as the code has it: in the reference scenario (timeout 1.5 s, delay
1 s, three ordinals), under the idealised timing and whatever the choices,
`doSomething` returns, the scope is cancelled by its deadline, and the Worker
has received the two values 1 and 2 before it reports the elapsed deadline:
its records are `doAnother: 1`, `doAnother: 2`,
`doAnother err: context deadline exceeded`, `doAnother: finished`. -/
theorem reference_scenario_records (cs : List Nat) (hcs : 15 ≤ cs.length) :
    (doSomething reference cs).coord = .returned ∧
    (doSomething reference cs).ctx = .CancelledByTimeout ∧
    receivedOrdinals (doSomething reference cs).out = [1, 2] ∧
    lines (workerRecords (doSomething reference cs)) =
      ["doAnother: 1", "doAnother: 2", "doAnother err: context deadline exceeded",
        "doAnother: finished"] := by
  have h := run_of_within reference
    (within_deadline_between reference 2 (by decide) (by decide) (by decide) (by decide))
    rfl cs hcs
  simp only [doSomething]
  rw [h]
  decide

/-- C1, witness: the reference scenario run for fifteen steps. -/
theorem reference_scenario_records_witness :
    15 ≤ (List.replicate 15 0).length ∧
    lines (workerRecords (doSomething reference (List.replicate 15 0))) =
      ["doAnother: 1", "doAnother: 2", "doAnother err: context deadline exceeded",
        "doAnother: finished"] :=
  ⟨by decide, (reference_scenario_records (List.replicate 15 0) (by decide)).2.2.2⟩

set_option maxRecDepth 100000 in
/-- C1, counterexample: the reference scenario run to its end does not leave
the three records of the claim; the Worker has received 2 as well as 1. -/
theorem reference_scenario_not_one_value :
    (doSomething reference (List.replicate 15 0)).coord = .returned ∧
    receivedOrdinals (doSomething reference (List.replicate 15 0)).out ≠ [1] ∧
    lines (workerRecords (doSomething reference (List.replicate 15 0))) ≠
      ["doAnother: 1", "doAnother err: context deadline exceeded", "doAnother: finished"] := by
  decide

/-- C2, as the code has it: for every item count N, delay D and timeout T with
`D * (k - 1) < T ≤ D * k` for some `1 ≤ k ≤ N`, where `T = D * k` only for
`k = N`, under the idealised timing and whatever the choices, the Worker has
received exactly the k values 1, 2, ..., k, in order; and when `T < D * k`,
`doSomething` returns, the scope is cancelled by its deadline, and the records
of the Worker are those k values followed by the report of the elapsed
deadline and the termination record. -/
theorem handoffs_before_deadline (cfg : Config) (k : Nat) (hk : 1 ≤ k)
    (hkN : k ≤ cfg.totalItems)
    (hlo : cfg.perItemDelay * (k - 1) < cfg.timeout)
    (hhi : cfg.timeout ≤ cfg.perItemDelay * k)
    (htie : cfg.timeout = cfg.perItemDelay * k → k = cfg.totalItems)
    (cs : List Nat) (hcs : 2 * k + cfg.totalItems + 8 ≤ cs.length) :
    receivedOrdinals (doSomething cfg cs).out = List.range' 1 k ∧
    (receivedOrdinals (doSomething cfg cs).out).length = k ∧
    (cfg.timeout < cfg.perItemDelay * k →
      (doSomething cfg cs).coord = .returned ∧
      (doSomething cfg cs).ctx = .CancelledByTimeout ∧
      workerRecords (doSomething cfg cs) =
        (List.range' 1 k).map Record.received ++ [.err .DeadlineExceeded, .workerFinished]) := by
  simp only [doSomething]
  rcases Nat.lt_or_eq_of_le hhi with hlt | heq
  · have h := run_of_within cfg (within_deadline_between cfg k hk hkN hlo hlt) rfl cs hcs
    rw [h]
    refine ⟨?_, ?_, fun _ => ⟨rfl, rfl, ?_⟩⟩
    · simp only [receivedOrdinals_append, receivedOrdinals_recvd]
      simp [receivedOrdinals, Record.ordinal?]
    · simp only [receivedOrdinals_append, receivedOrdinals_recvd]
      simp [receivedOrdinals, Record.ordinal?]
    · simp only [workerRecords, List.filter_append, filter_isWorker_recvd]
      rfl
  · have hkeq := htie heq
    subst hkeq
    have hD : 0 < cfg.perItemDelay := by
      rcases Nat.eq_zero_or_pos cfg.perItemDelay with h0 | h0
      · rw [h0] at heq hlo; simp [heq] at hlo
      · exact h0
    have h := ordinals_deadline_on_last_wake cfg hk hD hlo cs (by omega)
    rw [h]
    exact ⟨rfl, by simp, fun hlt => absurd heq (Nat.ne_of_lt hlt)⟩

/-- C2, witness: the constants of the source, where k = 2. -/
theorem handoffs_before_deadline_witness :
    (1 ≤ 2 ∧ 2 ≤ reference.totalItems ∧
      reference.perItemDelay * (2 - 1) < reference.timeout ∧
      reference.timeout ≤ reference.perItemDelay * 2) ∧
    receivedOrdinals (doSomething reference (List.replicate 15 1)).out = List.range' 1 2 :=
  ⟨by decide, (handoffs_before_deadline reference 2 (by decide) (by decide) (by decide)
    (by decide) (by decide) (List.replicate 15 1) (by decide)).1⟩

set_option maxRecDepth 100000 in
/-- C2, counterexample: with N = 3, D = 1000, T = 1500 the hypothesis of the
claim holds for k = 2, and the Worker has received two values, not k - 1 = 1.
And with T = 1000 = D * k for k = 1 < N the deadline and the end of the first
sleep fall together: the Worker has received one value when the deadline is
taken first and two when the Coordinator is. -/
theorem handoffs_not_k_minus_one :
    (reference.perItemDelay * (2 - 1) < reference.timeout ∧
      reference.timeout ≤ reference.perItemDelay * 2 ∧ 1 ≤ 2 ∧ 2 ≤ reference.totalItems) ∧
    (doSomething reference (List.replicate 15 1)).coord = .returned ∧
    (receivedOrdinals (doSomething reference (List.replicate 15 1)).out).length ≠ 2 - 1 ∧
    receivedOrdinals (doSomething reference (List.replicate 15 1)).out ≠
      List.range' 1 (2 - 1) ∧
    receivedOrdinals
      (doSomething { reference with timeout := 1000 } (List.replicate 15 0)).out = [1] ∧
    receivedOrdinals
      (doSomething { reference with timeout := 1000 }
        ([0, 0, 1] ++ List.replicate 12 0)).out = [1, 2] := by
  decide

set_option maxRecDepth 100000 in
/-- C3, the code at the failing input: with the scope cancelled, the
`ctx.Done()` branch taken for the ordinal 1 or 2 leaves the Coordinator in the
`select` of the next ordinal, not at the explicit cancel of line 33, which it
reaches only from the ordinal 3. In the execution in which the deadline
elapses before the first handoff and the race for the ordinal 1 is resolved by
the cancellation, the Coordinator is next in the `select` for the ordinal 2;
no handoff can complete there, and it reaches line 33 only after taking the
`ctx.Done()` branch twice more, with no time passed and nothing printed. -/
theorem break_leaves_only_the_select :
    (∀ (now i : Nat) (w : WorkerPc) (out : List Record),
      step reference .coordDone ⟨now, .CancelledByTimeout, .select i, w, out⟩ =
        some ⟨now, .CancelledByTimeout, loopFrom reference (i + 1), w, out⟩) ∧
    loopFrom reference (1 + 1) = .select 2 ∧
    loopFrom reference (2 + 1) = .select 3 ∧
    loopFrom reference (3 + 1) = .cancel ∧
    exec reference [.advance, .deadline, .coordDone] (init reference) =
      ⟨1500, .CancelledByTimeout, .select 2, .Listening, []⟩ ∧
    (∀ (now i : Nat) (w : WorkerPc) (out : List Record),
      step reference .handoff ⟨now, .CancelledByTimeout, .select i, w, out⟩ = none) ∧
    exec reference [.advance, .deadline, .coordDone, .coordDone] (init reference) =
      ⟨1500, .CancelledByTimeout, .select 3, .Listening, []⟩ ∧
    exec reference [.advance, .deadline, .coordDone, .coordDone, .coordDone]
        (init reference) =
      ⟨1500, .CancelledByTimeout, .cancel, .Listening, []⟩ := by
  refine ⟨fun now i w out => by simp [step, Scope.isDone, Scope.Err], ?_, ?_, ?_, ?_,
    fun now i w out => by cases w <;> simp [step, Scope.isDone, Scope.Err], ?_, ?_⟩ <;>
    decide

/-- C4: with a timeout of 10 s, a delay of 1 s and three ordinals, under the
idealised timing and whatever the choices, `doSomething` returns, the scope is
cancelled by the explicit cancel of line 33, and the records of the Worker are
`doAnother: 1`, `doAnother: 2`, `doAnother: 3`,
`doAnother err: context canceled`, `doAnother: finished`. -/
theorem long_timeout_records (cs : List Nat) (hcs : 15 ≤ cs.length) :
    (doSomething longTimeout cs).coord = .returned ∧
    (doSomething longTimeout cs).ctx = .CancelledExplicitly ∧
    receivedOrdinals (doSomething longTimeout cs).out = [1, 2, 3] ∧
    lines (workerRecords (doSomething longTimeout cs)) =
      ["doAnother: 1", "doAnother: 2", "doAnother: 3", "doAnother err: context canceled",
        "doAnother: finished"] := by
  have h := run_of_within longTimeout
    (within_deadline_after longTimeout (by decide) (by decide) (by decide) (by decide))
    rfl cs hcs
  simp only [doSomething]
  rw [h]
  decide

/-- C4, witness: the scenario run for fifteen steps. -/
theorem long_timeout_records_witness :
    15 ≤ (List.replicate 15 0).length ∧
    lines (workerRecords (doSomething longTimeout (List.replicate 15 0))) =
      ["doAnother: 1", "doAnother: 2", "doAnother: 3", "doAnother err: context canceled",
        "doAnother: finished"] :=
  ⟨by decide, (long_timeout_records (List.replicate 15 0) (by decide)).2.2.2⟩

/-- C5: fed any number of received values followed by one observation of
cancellation, the Worker `doAnother` stops, prints exactly one termination
record, and that record, whose text is `doAnother: finished` and which no
other record shares, is the last one it prints. -/
theorem doAnother_one_termination_record (vs : List Nat) (err : Option Cause) :
    (doAnother (vs.map .value ++ [.done err])).1 = .Stopped ∧
    (doAnother (vs.map .value ++ [.done err])).2.count .workerFinished = 1 ∧
    (doAnother (vs.map .value ++ [.done err])).2.getLast? = some .workerFinished ∧
    (lines (doAnother (vs.map .value ++ [.done err])).2).count "doAnother: finished" = 1 ∧
    (lines (doAnother (vs.map .value ++ [.done err])).2).getLast? =
      some "doAnother: finished" := by
  rw [doAnother_values_done]
  have hc : (vs.map Record.received).count .workerFinished = 0 := by
    rw [List.count_eq_zero]; simp
  have hl : (vs.map (Record.render ∘ Record.received)).count "doAnother: finished" = 0 := by
    rw [List.count_eq_zero]
    intro hm
    simp only [List.mem_map] at hm
    obtain ⟨n, _, hr⟩ := hm
    exact render_received_ne n hr
  refine ⟨rfl, ?_, ?_, ?_, ?_⟩
  · cases err <;> simp [List.count_append, hc, List.count_cons]
  · cases err <;> simp [List.getLast?_append]
  · cases err with
    | none => simp [lines, List.count_append, hl, List.count_cons, Record.render]
    | some c =>
      have := render_err_ne c
      simp [lines, List.count_append, hl, List.count_cons, this]
      simp [Record.render]
  · cases err <;> simp [lines, List.getLast?_append, Record.render]

/-- C6: explicit cancel is idempotent on every scope state and is the identity
on a cancelled one; the explicit cancel of line 33 and the deferred cancel of
line 16 leave a scope cancelled by timeout as it is; and in every execution a
scope cancelled by timeout keeps reporting `DeadlineExceeded`. -/
theorem cancel_idempotent_keeps_cause :
    (∀ s : Scope, s.cancel.cancel = s.cancel) ∧
    Scope.CancelledByTimeout.cancel = .CancelledByTimeout ∧
    Scope.CancelledExplicitly.cancel = .CancelledExplicitly ∧
    Scope.CancelledByTimeout.cancel.Err = some .DeadlineExceeded ∧
    Scope.CancelledByTimeout.cancel.cancel.Err = some .DeadlineExceeded ∧
    (∀ (cfg : Config) (now : Nat) (w : WorkerPc) (out : List Record),
      step cfg .coordStep ⟨now, .CancelledByTimeout, .cancel, w, out⟩ =
        some ⟨now, .CancelledByTimeout, .grace (now + cfg.grace), w, out⟩) ∧
    (∀ (cfg : Config) (now : Nat) (w : WorkerPc) (out : List Record),
      step cfg .coordStep ⟨now, .CancelledByTimeout, .deferred, w, out⟩ =
        some ⟨now, .CancelledByTimeout, .returned, w, out⟩) ∧
    (∀ (cfg : Config) (sched : List Action) (now : Nat) (pc : CoordPc) (w : WorkerPc)
        (out : List Record),
      (exec cfg sched ⟨now, .CancelledByTimeout, pc, w, out⟩).ctx.Err =
        some .DeadlineExceeded) := by
  refine ⟨fun s => by cases s <;> rfl, rfl, rfl, rfl, rfl, ?_, ?_, ?_⟩
  · intro cfg now w out; simp [step, Scope.cancel]
  · intro cfg now w out; simp [step, Scope.cancel]
  · intro cfg sched now pc w out
    rw [exec_keeps_timeout cfg sched _ rfl]
    rfl

/-- C7: in every execution of `doSomething` with `doAnother`, whatever the
interleaving and however the two `select` races are resolved, and so also
under the idealised timing with any choices, the ordinals the Worker records
as received are strictly increasing. -/
theorem received_strictly_increasing (cfg : Config) :
    (∀ sched : List Action,
      List.Pairwise (fun a b => a < b) (receivedOrdinals (exec cfg sched (init cfg)).out)) ∧
    (∀ cs : List Nat,
      List.Pairwise (fun a b => a < b) (receivedOrdinals (run cfg cs (init cfg)).out)) :=
  ⟨fun sched => (ordered_exec cfg sched _ (ordered_init cfg)).1,
    fun cs => (ordered_run cfg cs _ (ordered_init cfg)).1⟩

/-- C8: a received value `n` makes the listening Worker print `doAnother: n`
and stay listening; the Worker is stopped after a sequence of events if and
only if one of them was the observation of cancellation; after any sequence of
received values alone it is still listening, having printed one record per
value. -/
theorem doAnother_stops_only_on_cancellation :
    (∀ n : Nat, workerStep (.value n) .Listening = (.Listening, [.received n])) ∧
    (∀ n : Nat, Record.render (.received n) = "doAnother: " ++ toString n) ∧
    (∀ events : List WorkerEvent,
      (doAnother events).1 = .Stopped ↔ ∃ err, WorkerEvent.done err ∈ events) ∧
    (∀ vs : List Nat, doAnother (vs.map .value) = (.Listening, vs.map .received)) := by
  refine ⟨fun n => rfl, fun n => rfl, ?_, ?_⟩
  · intro events
    simp only [doAnother]
    induction events with
    | nil => simp [workerFrom]
    | cons e rest ih =>
      cases e with
      | value n =>
        simp only [workerFrom, workerStep, ih]
        simp
      | done err =>
        simp only [workerFrom, workerStep, workerFrom_stopped]
        simp
  · intro vs
    have h := workerFrom_values vs []
    simpa [doAnother, workerFrom] using h

/-- C9: a Worker that observes the scope cancelled with the cause `c`, after
any received values, prints one cause record for `c` and directly after it the
termination record; the cause record reads
`doAnother err: context deadline exceeded` for `DeadlineExceeded` and
`doAnother err: context canceled` for `ExplicitlyCancelled`, two different
texts; and in the program the cause printed is the one of the scope. -/
theorem doAnother_reports_cause :
    (∀ (vs : List Nat) (c : Cause),
      doAnother (vs.map .value ++ [.done (some c)]) =
        (.Stopped, vs.map .received ++ [.err c, .workerFinished])) ∧
    (∀ (vs : List Nat) (c : Cause),
      (doAnother (vs.map .value ++ [.done (some c)])).2.count (.err c) = 1) ∧
    Record.render (.err .DeadlineExceeded) = "doAnother err: context deadline exceeded" ∧
    Record.render (.err .ExplicitlyCancelled) = "doAnother err: context canceled" ∧
    Record.render (.err .DeadlineExceeded) ≠ Record.render (.err .ExplicitlyCancelled) ∧
    (∀ (cfg : Config) (now : Nat) (pc : CoordPc) (out : List Record),
      step cfg .workerDone ⟨now, .CancelledByTimeout, pc, .Listening, out⟩ =
        if pc = .returned then none
        else some ⟨now, .CancelledByTimeout, pc, .Stopped,
          out ++ [.err .DeadlineExceeded, .workerFinished]⟩) ∧
    (∀ (cfg : Config) (now : Nat) (pc : CoordPc) (out : List Record),
      step cfg .workerDone ⟨now, .CancelledExplicitly, pc, .Listening, out⟩ =
        if pc = .returned then none
        else some ⟨now, .CancelledExplicitly, pc, .Stopped,
          out ++ [.err .ExplicitlyCancelled, .workerFinished]⟩) ∧
    (∀ (cfg : Config) (now : Nat) (pc : CoordPc) (w : WorkerPc) (out : List Record),
      step cfg .workerDone ⟨now, .Active, pc, w, out⟩ = none) := by
  refine ⟨fun vs c => by simp [doAnother_values_done], ?_, by decide, by decide, by decide,
    ?_, ?_, ?_⟩
  · intro vs c
    rw [doAnother_values_done]
    have hc : (vs.map Record.received).count (.err c) = 0 := by
      rw [List.count_eq_zero]; simp
    simp [List.count_append, hc, List.count_cons]
  · intro cfg now pc out
    by_cases h : pc = .returned <;> simp [step, h, Scope.isDone, Scope.Err, workerStep]
  · intro cfg now pc out
    by_cases h : pc = .returned <;> simp [step, h, Scope.isDone, Scope.Err, workerStep]
  · intro cfg now pc w out
    by_cases h : pc = .returned <;> cases w <;> simp [step, h, Scope.isDone, Scope.Err]

/-- C10: for every user `u` and string `e`, the method `updateEmail` and the
function `UpdateEmail` leave the same user, whose email read by the method
`Email` and by the function `Email` is `e` and whose other fields are those of
`u`; and the two reads agree on every user. -/
theorem updateEmail_sets_only_email (u : User) (e : String) :
    u.updateEmail e = UpdateEmail u e ∧
    (u.updateEmail e).Email = e ∧
    Email (u.updateEmail e) = e ∧
    (u.updateEmail e).username = u.username ∧
    (u.updateEmail e).age = u.age ∧
    (u.updateEmail e).file = u.file ∧
    u.Email = Email u :=
  ⟨rfl, rfl, rfl, rfl, rfl, rfl, rfl⟩

end GoTutorial
